import Mathlib

/-!
Verification of the chess rules engine in `chess_game.py`.

The Python classes `PieceType`, `Color`, `Position`, `ChessPiece`, the board
dictionary owned by `ChessEngine`, and the engine's operations
(`_get_piece_moves`, `_get_castling_moves`, `_is_position_attacked`,
`_is_in_check`, `get_legal_moves`, `make_move`, `_handle_special_moves`,
`_update_castling_rights`, `_update_en_passant`, `is_checkmate`,
`is_stalemate`, `is_draw`), the AI policy `SimpleAI.choose_move` /
`SimpleAI.evaluate_move`, and the GUI's `_undo_move` are embedded below as
executable Lean definitions.

Modelling conventions:
* The Python `dict` from `Position` to `ChessPiece` is a function
  `Position → Option ChessPiece` (sparse mapping; `none` = empty square).
  Python dict equality is extensional, matching function equality.
* Python sets of destination squares are lists; only membership (and
  emptiness) of these sets is ever observed, so duplicated or reordered
  elements are immaterial.
* A raised `KeyError` (subscripting a missing key, or `del` of a missing
  key) is modelled by `Option`/`none` propagating out of the operation.
* Iteration over `self.board.items()` (insertion order) is replaced by
  row-major iteration over all 64 squares; the set of pieces visited is
  identical.
* `random.choice(best_options)` in `SimpleAI.choose_move` is modelled by
  returning the whole `best_options` list; `None` corresponds to `[]`.
-/

inductive PieceType where
  | KING | QUEEN | ROOK | BISHOP | KNIGHT | PAWN
deriving DecidableEq, Repr

inductive Color where
  | WHITE | BLACK
deriving DecidableEq, Repr

/-- The opponent of a color (`Color.BLACK if color == Color.WHITE else Color.WHITE`). -/
def Color.opposite : Color → Color
  | .WHITE => .BLACK
  | .BLACK => .WHITE

structure ChessPiece where
  piece_type : PieceType
  color : Color
deriving DecidableEq, Repr

/-- `Position(row, col)`.  The engine only ever stores in-range positions in the
board dictionary, and `Position.__add__` bounds-checks to 0..7, so rows and
columns are `Fin 8`. -/
structure Position where
  row : Fin 8
  col : Fin 8
deriving DecidableEq, Repr

/-- `Position.__add__`: add an offset, yielding a position only when both new
coordinates stay within `0 ≤ x < 8`. -/
def Position.add (p : Position) (d : Int × Int) : Option Position :=
  let nr : Int := (p.row : Int) + d.1
  let nc : Int := (p.col : Int) + d.2
  if h : 0 ≤ nr ∧ nr < 8 ∧ 0 ≤ nc ∧ nc < 8 then
    some ⟨⟨nr.toNat, by omega⟩, ⟨nc.toNat, by omega⟩⟩
  else
    none

/-- Row-major enumeration of the 64 squares. -/
def allPositions : List Position :=
  (List.finRange 8).flatMap (fun r => (List.finRange 8).map (fun c => ⟨r, c⟩))

theorem mem_allPositions (p : Position) : p ∈ allPositions := by
  obtain ⟨r, c⟩ := p
  simp only [allPositions, List.mem_flatMap, List.mem_map]
  exact ⟨r, List.mem_finRange r, c, List.mem_finRange c, rfl⟩

instance : Fintype Position where
  elems := ⟨allPositions, by decide⟩
  complete := mem_allPositions

/-- The board dictionary `Dict[Position, ChessPiece]`, as a sparse mapping. -/
abbrev Board := Position → Option ChessPiece

/-- `board[p] = v` (for `v = some piece`) or `del board[p]` / `board.pop(p, None)`
(for `v = none`). -/
def Board.set (b : Board) (p : Position) (v : Option ChessPiece) : Board :=
  fun q => if q = p then v else b q

theorem Board.set_self (b : Board) (p : Position) (v : Option ChessPiece) :
    b.set p v p = v := by simp [Board.set]

theorem Board.set_other (b : Board) (p q : Position) (v : Option ChessPiece)
    (h : q ≠ p) : b.set p v q = b q := by simp [Board.set, h]

/-- The castling-rights dictionary, keyed on `(Color, 'king' | 'queen')`.
Its key set is fixed at construction, so it is a record of four booleans. -/
inductive CastleSide where
  | king | queen
deriving DecidableEq, Repr

structure CastlingRights where
  white_king : Bool
  white_queen : Bool
  black_king : Bool
  black_queen : Bool
deriving DecidableEq, Repr

/-- `self.castling_rights.get((color, side), False)`; all four keys are always
present, so the default is never taken. -/
def CastlingRights.get (cr : CastlingRights) : Color → CastleSide → Bool
  | .WHITE, .king => cr.white_king
  | .WHITE, .queen => cr.white_queen
  | .BLACK, .king => cr.black_king
  | .BLACK, .queen => cr.black_queen

/-- `self.castling_rights[(color, side)] = v`. -/
def CastlingRights.set (cr : CastlingRights) : Color → CastleSide → Bool → CastlingRights
  | .WHITE, .king, v => { cr with white_king := v }
  | .WHITE, .queen, v => { cr with white_queen := v }
  | .BLACK, .king, v => { cr with black_king := v }
  | .BLACK, .queen, v => { cr with black_queen := v }

/-- The state owned by `ChessEngine`. -/
structure GameState where
  board : Board
  current_turn : Color
  move_history : List (Position × Position × Option ChessPiece)
  castling_rights : CastlingRights
  en_passant_target : Option Position
  halfmove_clock : Nat
  fullmove_number : Nat

instance : DecidableEq GameState := fun s t => by
  obtain ⟨b1, c1, h1, r1, e1, k1, f1⟩ := s
  obtain ⟨b2, c2, h2, r2, e2, k2, f2⟩ := t
  exact decidable_of_iff
    (b1 = b2 ∧ c1 = c2 ∧ h1 = h2 ∧ r1 = r2 ∧ e1 = e2 ∧ k1 = k2 ∧ f1 = f2)
    (by constructor
        · rintro ⟨rfl, rfl, rfl, rfl, rfl, rfl, rfl⟩; rfl
        · intro h; cases h; exact ⟨rfl, rfl, rfl, rfl, rfl, rfl, rfl⟩)

/-- Range `range(-7, 8)` used to build the sliding-piece vector table. -/
def sliderRange : List Int :=
  [-7, -6, -5, -4, -3, -2, -1, 0, 1, 2, 3, 4, 5, 6, 7]

/-- `ChessEngine.VECTORS`: the movement-vector table, built exactly as the
Python comprehensions build it (duplicated ray directions included). -/
def vectors : PieceType → List (Int × Int)
  | .KING =>
      ([-1, 0, 1] : List Int).flatMap fun i =>
        ([-1, 0, 1] : List Int).filterMap fun j =>
          if (i, j) ≠ ((0 : Int), (0 : Int)) then some (i, j) else none
  | .QUEEN =>
      sliderRange.flatMap fun i =>
        sliderRange.filterMap fun j =>
          if ((i = 0) ≠ (j = 0)) ∨ (i.natAbs = j.natAbs ∧ i ≠ 0) then some (i, j)
          else none
  | .ROOK =>
      (sliderRange.filterMap fun i => if i ≠ 0 then some (i, (0 : Int)) else none) ++
      (sliderRange.filterMap fun j => if j ≠ 0 then some ((0 : Int), j) else none)
  | .BISHOP =>
      (sliderRange.filterMap fun i => if i ≠ 0 then some (i, i) else none) ++
      (sliderRange.filterMap fun i => if i ≠ 0 then some (i, -i) else none)
  | .KNIGHT => [(2, 1), (2, -1), (-2, 1), (-2, -1), (1, 2), (1, -2), (-1, 2), (-1, -2)]
  | .PAWN => []

/-- Normalization of a sliding vector to a unit step, as computed inside the
while loop: `v // max(abs(v), 1) if v else 0` componentwise. -/
def normStep (v : Int × Int) : Int × Int :=
  ((if v.1 = 0 then 0 else v.1 / max (v.1.natAbs : Int) 1),
   (if v.2 = 0 then 0 else v.2 / max (v.2.natAbs : Int) 1))

/-- Pawn destinations from `_get_piece_moves`: forward push (with double push
from the start row), diagonal captures, and en-passant captures. -/
def pawn_moves (b : Board) (ep : Option Position) (pos : Position)
    (piece : ChessPiece) : List Position :=
  let direction : Int := if piece.color = .WHITE then -1 else 1
  let start_row : Fin 8 := if piece.color = .WHITE then 6 else 1
  let forward : List Position :=
    match pos.add (direction, 0) with
    | none => []
    | some front =>
      if b front = none then
        front ::
          (if pos.row = start_row then
            match pos.add (2 * direction, 0) with
            | none => []
            | some dbl => if b dbl = none then [dbl] else []
          else [])
      else []
  let captures : List Position :=
    ([pos.add (direction, -1), pos.add (direction, 1)].filterMap id).filter
      fun p => match b p with
        | some target => target.color ≠ piece.color
        | none => false
  let enPassant : List Position :=
    match ep with
    | some target =>
        ([pos.add (direction, -1), pos.add (direction, 1)].filterMap id).filter
          fun p => p = target
    | none => []
  forward ++ captures ++ enPassant

/-- Single-step destinations for king and knight from `_get_piece_moves`:
on-board squares that are empty or hold an enemy piece. -/
def step_moves (b : Board) (pos : Position) (piece : ChessPiece) : List Position :=
  ((vectors piece.piece_type).filterMap (pos.add ·)).filter
    fun p => match b p with
      | some target => target.color ≠ piece.color
      | none => true

/-- One ray walk of the sliding-piece while loop: step by the normalized
vector, collecting empty squares, stopping after the first enemy square and
before the first friendly square.  A ray visits at most 7 on-board squares,
so fuel 8 reproduces the unbounded loop. -/
def slideWalk (b : Board) (c : Color) : Nat → Position → Int × Int → List Position
  | 0, _, _ => []
  | fuel + 1, cur, step =>
    match cur.add step with
    | none => []
    | some nxt =>
      match b nxt with
      | some target => if target.color ≠ c then [nxt] else []
      | none => nxt :: slideWalk b c fuel nxt step

/-- Sliding destinations from `_get_piece_moves`: every vector of the table is
walked as a normalized ray. -/
def slide_moves (b : Board) (pos : Position) (piece : ChessPiece) : List Position :=
  (vectors piece.piece_type).flatMap fun v => slideWalk b piece.color 8 pos (normStep v)

/-- `_get_piece_moves(pos, piece, include_castling=False)`: the raw
pseudo-legal destinations, used for attack detection (castling excluded). -/
def raw_moves (b : Board) (ep : Option Position) (pos : Position)
    (piece : ChessPiece) : List Position :=
  match piece.piece_type with
  | .PAWN => pawn_moves b ep pos piece
  | .KING => step_moves b pos piece
  | .KNIGHT => step_moves b pos piece
  | _ => slide_moves b pos piece

/-- `_is_position_attacked(pos, defending_color)`: some piece of the opposing
color has `pos` among its raw pseudo-legal destinations. -/
def is_position_attacked (b : Board) (ep : Option Position) (pos : Position)
    (defending : Color) : Bool :=
  allPositions.any fun ap =>
    match b ap with
    | some attacker =>
        attacker.color = defending.opposite && decide (pos ∈ raw_moves b ep ap attacker)
    | none => false

/-- `_is_in_check(color)`: locate the king of `color` (row-major stands in for
dict order; the engine keeps exactly one king per color) and test whether its
square is attacked; no king means not in check. -/
def is_in_check (b : Board) (ep : Option Position) (color : Color) : Bool :=
  match allPositions.find? (fun p => b p = some ⟨.KING, color⟩) with
  | some king_pos => is_position_attacked b ep king_pos color
  | none => false

/-- `_get_castling_moves(king_pos, king)` (the `king_pos` argument is unused in
the source as well; the home row comes from the color). -/
def castling_moves (b : Board) (ep : Option Position) (cr : CastlingRights)
    (_king_pos : Position) (king : ChessPiece) : List Position :=
  let row : Fin 8 := if king.color = .WHITE then 7 else 0
  let kingside : List Position :=
    if cr.get king.color .king
        && ([5, 6] : List (Fin 8)).all (fun c => decide (b ⟨row, c⟩ = none))
        && !(([4, 5, 6] : List (Fin 8)).any fun c =>
              is_position_attacked b ep ⟨row, c⟩ king.color) then
      [⟨row, 6⟩]
    else []
  let queenside : List Position :=
    if cr.get king.color .queen
        && ([1, 2, 3] : List (Fin 8)).all (fun c => decide (b ⟨row, c⟩ = none))
        && !(([2, 3, 4] : List (Fin 8)).any fun c =>
              is_position_attacked b ep ⟨row, c⟩ king.color) then
      [⟨row, 2⟩]
    else []
  kingside ++ queenside

/-- `_get_piece_moves(pos, piece)` with `include_castling=True`: the raw
destinations plus, for a king not in check, the castling destinations. -/
def piece_moves (b : Board) (ep : Option Position) (cr : CastlingRights)
    (pos : Position) (piece : ChessPiece) : List Position :=
  raw_moves b ep pos piece ++
    (if piece.piece_type = .KING && !is_in_check b ep piece.color then
      castling_moves b ep cr pos piece
    else [])

/-- One simulated candidate inside `get_legal_moves`: make the move on the
board, test own-king safety on the mutated board, then restore the board
(put the piece back; re-insert the captured piece, or `pop` the destination). -/
def legal_sim (ep : Option Position) (pos : Position) (piece : ChessPiece)
    (legal : List Position) (bd : Board) (mv : Position) : List Position × Board :=
  let captured := bd mv
  let bd1 := (bd.set mv (some piece)).set pos none
  let safe := !is_in_check bd1 ep piece.color
  let bd2 := bd1.set pos (some piece)
  let bd3 := if captured.isSome then bd2.set mv captured else bd2.set mv none
  ((if safe then legal ++ [mv] else legal), bd3)

/-- The body of the `for move in moves` loop of `get_legal_moves`: a candidate
whose destination holds a king is skipped; every other candidate is simulated
and the board restored. -/
def legal_step (ep : Option Position) (pos : Position) (piece : ChessPiece)
    (acc : List Position × Board) (mv : Position) : List Position × Board :=
  match acc.2 mv with
  | some target =>
      if target.piece_type = .KING then acc
      else legal_sim ep pos piece acc.1 acc.2 mv
  | none => legal_sim ep pos piece acc.1 acc.2 mv

/-- `get_legal_moves(pos)`.  The Python method mutates `self.board` during each
simulation and restores it; the returned state carries the board as it stands
when the method returns, so full restoration is a theorem, not an assumption. -/
def get_legal_moves (gs : GameState) (pos : Position) : List Position × GameState :=
  match gs.board pos with
  | none => ([], gs)
  | some piece =>
    if piece.color ≠ gs.current_turn then ([], gs)
    else
      let moves := piece_moves gs.board gs.en_passant_target gs.castling_rights pos piece
      let r := moves.foldl (legal_step gs.en_passant_target pos piece) ([], gs.board)
      (r.1, { gs with board := r.2 })

/-- `_handle_special_moves(from_pos, to_pos, piece)`: castling rook relocation,
en-passant capture removal, pawn auto-promotion.  `none` models a `KeyError`
(subscripting or deleting an absent key). -/
def handle_special_moves (b : Board) (ep : Option Position)
    (from_pos to_pos : Position) (piece : ChessPiece) : Option Board :=
  let afterCastling : Option Board :=
    if piece.piece_type = .KING ∧ ((from_pos.col : Int) - (to_pos.col : Int)).natAbs = 2 then
      let row := from_pos.row
      if to_pos.col = (6 : Fin 8) then
        match b ⟨row, 7⟩ with
        | none => none
        | some rook => some ((b.set ⟨row, 5⟩ (some rook)).set ⟨row, 7⟩ none)
      else
        match b ⟨row, 0⟩ with
        | none => none
        | some rook => some ((b.set ⟨row, 3⟩ (some rook)).set ⟨row, 0⟩ none)
    else some b
  afterCastling.bind fun b1 =>
    let afterEnPassant : Option Board :=
      if piece.piece_type = .PAWN ∧ ep = some to_pos then
        let capture_row : Fin 8 := if piece.color = .WHITE then 3 else 4
        match b1 ⟨capture_row, to_pos.col⟩ with
        | none => none
        | some _ => some (b1.set ⟨capture_row, to_pos.col⟩ none)
      else some b1
    afterEnPassant.map fun b2 =>
      if piece.piece_type = .PAWN ∧ (to_pos.row = (0 : Fin 8) ∨ to_pos.row = (7 : Fin 8)) then
        b2.set to_pos (some ⟨.QUEEN, piece.color⟩)
      else b2

/-- `_update_castling_rights(from_pos, to_pos, piece)`. -/
def update_castling_rights (cr : CastlingRights) (from_pos _to_pos : Position)
    (piece : ChessPiece) : CastlingRights :=
  if piece.piece_type = .KING then
    (cr.set piece.color .king false).set piece.color .queen false
  else if piece.piece_type = .ROOK then
    if from_pos.col = (0 : Fin 8) then cr.set piece.color .queen false
    else if from_pos.col = (7 : Fin 8) then cr.set piece.color .king false
    else cr
  else cr

/-- `_update_en_passant(from_pos, to_pos, piece)`. -/
def update_en_passant (from_pos to_pos : Position) (piece : ChessPiece) :
    Option Position :=
  if piece.piece_type = .PAWN ∧ ((from_pos.row : Int) - (to_pos.row : Int)).natAbs = 2 then
    some ⟨⟨((from_pos.row : Nat) + (to_pos.row : Nat)) / 2, by omega⟩, from_pos.col⟩
  else none

/-- `make_move(from_pos, to_pos)`.  Result `some (flag, state)` is the Python
return value together with the updated engine state; `none` models an
uncaught `KeyError` escaping the call. -/
def make_move (gs : GameState) (from_pos to_pos : Position) :
    Option (Bool × GameState) :=
  let (legal, gs1) := get_legal_moves gs from_pos
  if to_pos ∉ legal then some (false, gs1)
  else
    match gs1.board from_pos with
    | none => none
    | some piece =>
      let captured := gs1.board to_pos
      (handle_special_moves gs1.board gs1.en_passant_target from_pos to_pos piece).bind
        fun b1 =>
          let b2 := b1.set to_pos (some piece)
          match b2 from_pos with
          | none => none
          | some _ =>
            some (true,
              { board := b2.set from_pos none
                current_turn := gs1.current_turn.opposite
                move_history := gs1.move_history ++ [(from_pos, to_pos, captured)]
                castling_rights :=
                  update_castling_rights gs1.castling_rights from_pos to_pos piece
                en_passant_target := update_en_passant from_pos to_pos piece
                halfmove_clock :=
                  if captured.isSome ∨ piece.piece_type = .PAWN then 0
                  else gs1.halfmove_clock + 1
                fullmove_number :=
                  if gs1.current_turn = .BLACK then gs1.fullmove_number + 1
                  else gs1.fullmove_number })

/-- The aggregation `any(self.get_legal_moves(pos) for pos, piece in
list(self.board.items()) if piece.color == self.current_turn)` shared by
`is_checkmate` and `is_stalemate`.  Each `get_legal_moves` call restores the
board exactly (proved below as `get_legal_moves_state_eq`), so every call
sees the same state. -/
def has_any_legal_move (gs : GameState) : Bool :=
  allPositions.any fun p =>
    match gs.board p with
    | some piece =>
        piece.color = gs.current_turn && !(get_legal_moves gs p).1.isEmpty
    | none => false

/-- `is_checkmate()`. -/
def is_checkmate (gs : GameState) : Bool :=
  if !is_in_check gs.board gs.en_passant_target gs.current_turn then false
  else !has_any_legal_move gs

/-- `is_stalemate()`. -/
def is_stalemate (gs : GameState) : Bool :=
  if is_in_check gs.board gs.en_passant_target gs.current_turn then false
  else !has_any_legal_move gs

/-- The occupied squares, i.e. the key set of the board dictionary
(`list(self.board.values())` has one entry per occupied square). -/
def occupiedSquares (b : Board) : Finset Position :=
  Finset.univ.filter fun p => (b p).isSome

/-- `is_draw()`: fifty-move rule, insufficient material (`len(pieces) <= 3`
and every present kind among king/bishop/knight, phrasing the Python set
inclusion `piece_types <= {KING, BISHOP, KNIGHT}` pointwise), else stalemate. -/
def is_draw (gs : GameState) : Bool :=
  if 100 ≤ gs.halfmove_clock then true
  else if (occupiedSquares gs.board).card ≤ 3 ∧
      (∀ p, ∀ pc, gs.board p = some pc →
        pc.piece_type = .KING ∨ pc.piece_type = .BISHOP ∨ pc.piece_type = .KNIGHT) then
    true
  else is_stalemate gs

/-- The capture-value table of `SimpleAI.evaluate_move`. -/
def pieceValue : PieceType → Nat
  | .PAWN => 1
  | .KNIGHT => 3
  | .BISHOP => 3
  | .ROOK => 5
  | .QUEEN => 9
  | .KING => 0

/-- `SimpleAI.evaluate_move(move)`: value of the piece on the destination
square of the engine board, 0 for an empty destination. -/
def evaluate_move (b : Board) (mv : Position) : Nat :=
  match b mv with
  | none => 0
  | some captured => pieceValue captured.piece_type

/-- The `moves` comprehension of `SimpleAI.choose_move`: every (origin,
destination) pair with an own-colored piece at the origin and the destination
among its legal moves. -/
def choose_move_candidates (gs : GameState) : List (Position × Position) :=
  allPositions.flatMap fun pos =>
    match gs.board pos with
    | some piece =>
        if piece.color = gs.current_turn then
          (get_legal_moves gs pos).1.map fun mv => (pos, mv)
        else []
    | none => []

/-- `SimpleAI.choose_move()` up to the final `random.choice`: the list
`best_options` of candidate moves of maximal capture value (`[]` corresponds
to the Python `None` return; `random.choice` picks an element of this list).
The locals `moves` and `best_value` of the Python method are inlined. -/
def choose_move_best (gs : GameState) : List (Position × Position) :=
  if (choose_move_candidates gs).isEmpty then []
  else
    (choose_move_candidates gs).filter fun ft =>
      evaluate_move gs.board ft.2 =
        ((choose_move_candidates gs).map fun ft =>
          evaluate_move gs.board ft.2).foldr max 0

/-- `ChessGUI._undo_move()`: pop the last history entry, move the piece back,
restore any captured piece, flip the turn.  Castling rights, the en-passant
target and the move counters are left untouched, as in the source.  `none`
models the empty-history early return and the `KeyError` on an empty
destination square. -/
def undo_move (gs : GameState) : Option GameState :=
  match gs.move_history.getLast? with
  | none => none
  | some (from_pos, to_pos, captured) =>
    match gs.board to_pos with
    | none => none
    | some moved =>
      let b1 := (gs.board.set from_pos (some moved)).set to_pos none
      let b2 := match captured with
        | some cp => b1.set to_pos (some cp)
        | none => b1
      some { gs with
        board := b2
        move_history := gs.move_history.dropLast
        current_turn := gs.current_turn.opposite }

/-! ### Restoration of the board by the legality simulation -/

theorem Color.opposite_opposite (c : Color) : c.opposite.opposite = c := by
  cases c <;> rfl

/-- The restore sequence of one simulated candidate is exact: putting the
moving piece back and re-inserting (or popping) the captured piece yields the
original board. -/
theorem legal_sim_board (ep : Option Position) (pos : Position) (piece : ChessPiece)
    (legal : List Position) (bd : Board) (mv : Position) (h : bd pos = some piece) :
    (legal_sim ep pos piece legal bd mv).2 = bd := by
  show (if (bd mv).isSome then
        ((((bd.set mv (some piece)).set pos none).set pos (some piece)).set mv (bd mv))
      else
        ((((bd.set mv (some piece)).set pos none).set pos (some piece)).set mv none)) = bd
  have hcap : (if (bd mv).isSome then
        ((((bd.set mv (some piece)).set pos none).set pos (some piece)).set mv (bd mv))
      else
        ((((bd.set mv (some piece)).set pos none).set pos (some piece)).set mv none)) =
      ((((bd.set mv (some piece)).set pos none).set pos (some piece)).set mv (bd mv)) := by
    cases hbm : bd mv <;> simp [hbm]
  rw [hcap]
  funext q
  by_cases h1 : q = mv
  · subst h1; simp [Board.set]
  · by_cases h2 : q = pos
    · subst h2; simp [Board.set, h1, h]
    · simp [Board.set, h1, h2]

theorem legal_step_board (ep : Option Position) (pos : Position) (piece : ChessPiece)
    (acc : List Position × Board) (mv : Position) (h : acc.2 pos = some piece) :
    (legal_step ep pos piece acc mv).2 = acc.2 := by
  unfold legal_step
  cases hm : acc.2 mv with
  | none => exact legal_sim_board _ _ _ _ _ _ h
  | some target =>
    by_cases hk : target.piece_type = .KING
    · simp [hk]
    · simp only [hk, if_false]
      exact legal_sim_board _ _ _ _ _ _ h

theorem foldl_legal_board (ep : Option Position) (pos : Position) (piece : ChessPiece) :
    ∀ (l : List Position) (acc : List Position × Board), acc.2 pos = some piece →
      (l.foldl (legal_step ep pos piece) acc).2 = acc.2 := by
  intro l
  induction l with
  | nil => intro acc _; rfl
  | cons mv l ih =>
    intro acc h
    have hstep : (legal_step ep pos piece acc mv).2 = acc.2 :=
      legal_step_board ep pos piece acc mv h
    calc (List.foldl (legal_step ep pos piece) (legal_step ep pos piece acc mv) l).2
        = (legal_step ep pos piece acc mv).2 := ih _ (by rw [hstep]; exact h)
      _ = acc.2 := hstep

/-- `get_legal_moves` returns the engine state exactly as it found it: the
simulate-and-revert loop leaves no residue in the board, and no other field is
ever assigned. -/
theorem get_legal_moves_state_eq (gs : GameState) (pos : Position) :
    (get_legal_moves gs pos).2 = gs := by
  unfold get_legal_moves
  cases h : gs.board pos with
  | none => rfl
  | some piece =>
    by_cases hc : piece.color ≠ gs.current_turn
    · simp [hc]
    · simp only [hc, if_false]
      have hb :
          ((piece_moves gs.board gs.en_passant_target gs.castling_rights pos piece).foldl
            (legal_step gs.en_passant_target pos piece) ([], gs.board)).2 = gs.board :=
        foldl_legal_board _ _ _ _ ([], gs.board) h
      show { gs with board := _ } = gs
      rw [hb]

/-! ### Membership facts about the legality filter -/

theorem legal_sim_mem (ep : Option Position) (pos : Position) (piece : ChessPiece)
    (legal : List Position) (bd : Board) (mv x : Position)
    (hx : x ∈ (legal_sim ep pos piece legal bd mv).1) : x ∈ legal ∨ x = mv := by
  unfold legal_sim at hx
  by_cases hs : !is_in_check ((bd.set mv (some piece)).set pos none) ep piece.color
  · simp only [hs, if_true] at hx
    rcases List.mem_append.mp hx with h | h
    · exact Or.inl h
    · exact Or.inr (List.mem_singleton.mp h)
  · simp only [hs, if_false] at hx
    exact Or.inl hx

theorem legal_step_mem (ep : Option Position) (pos : Position) (piece : ChessPiece)
    (acc : List Position × Board) (mv x : Position)
    (hx : x ∈ (legal_step ep pos piece acc mv).1) :
    x ∈ acc.1 ∨ (x = mv ∧ ∀ c, acc.2 mv ≠ some ⟨.KING, c⟩) := by
  unfold legal_step at hx
  cases hm : acc.2 mv with
  | none =>
    rw [hm] at hx
    rcases legal_sim_mem _ _ _ _ _ _ _ hx with h | h
    · exact Or.inl h
    · exact Or.inr ⟨h, by simp [hm]⟩
  | some target =>
    rw [hm] at hx
    by_cases hk : target.piece_type = .KING
    · simp only [hk, if_true] at hx
      exact Or.inl hx
    · simp only [hk, if_false] at hx
      rcases legal_sim_mem _ _ _ _ _ _ _ hx with h | h
      · exact Or.inl h
      · refine Or.inr ⟨h, fun c hc => ?_⟩
        cases hc
        exact hk rfl

theorem foldl_legal_mem (ep : Option Position) (pos : Position) (piece : ChessPiece)
    (bd0 : Board) (x : Position) :
    ∀ (l : List Position) (acc : List Position × Board), acc.2 = bd0 →
      bd0 pos = some piece →
      x ∈ (l.foldl (legal_step ep pos piece) acc).1 →
      x ∈ acc.1 ∨ (x ∈ l ∧ ∀ c, bd0 x ≠ some ⟨.KING, c⟩) := by
  intro l
  induction l with
  | nil => intro acc _ _ hx; exact Or.inl hx
  | cons mv l ih =>
    intro acc hacc hpos hx
    have hstep : (legal_step ep pos piece acc mv).2 = acc.2 :=
      legal_step_board ep pos piece acc mv (by rw [hacc]; exact hpos)
    rcases ih (legal_step ep pos piece acc mv) (by rw [hstep]; exact hacc) hpos hx with
      h | ⟨hmem, hking⟩
    · rcases legal_step_mem ep pos piece acc mv x h with h' | ⟨rfl, hking⟩
      · exact Or.inl h'
      · exact Or.inr ⟨List.mem_cons_self _ _, by rw [← hacc]; exact hking⟩
    · exact Or.inr ⟨List.mem_cons_of_mem _ hmem, hking⟩

/-- A square occupied by a king (of either color) never survives the
legality filter. -/
theorem mem_legal_not_king (gs : GameState) (pos x : Position)
    (hx : x ∈ (get_legal_moves gs pos).1) :
    ∀ c, gs.board x ≠ some ⟨.KING, c⟩ := by
  unfold get_legal_moves at hx
  split at hx
  · cases hx
  · rename_i piece h
    split at hx
    · cases hx
    · rcases foldl_legal_mem gs.en_passant_target pos piece gs.board x _ ([], gs.board)
        rfl h hx with h' | ⟨_, hking⟩
      · cases h'
      · exact hking

/-- Every legal move is among the pseudo-legal destinations of a piece of the
side to move sitting on the origin square. -/
theorem mem_legal_pseudo (gs : GameState) (pos x : Position)
    (hx : x ∈ (get_legal_moves gs pos).1) :
    ∃ piece, gs.board pos = some piece ∧ piece.color = gs.current_turn ∧
      x ∈ piece_moves gs.board gs.en_passant_target gs.castling_rights pos piece := by
  unfold get_legal_moves at hx
  split at hx
  · cases hx
  · rename_i piece h
    split at hx
    · cases hx
    · rename_i hc
      refine ⟨piece, h, not_ne_iff.mp hc, ?_⟩
      rcases foldl_legal_mem gs.en_passant_target pos piece gs.board x _ ([], gs.board)
        rfl h hx with h' | ⟨hmem, _⟩
      · cases h'
      · exact hmem

/-! ### Behavior of `make_move` -/

theorem get_legal_moves_eta (gs : GameState) (pos : Position) :
    get_legal_moves gs pos = ((get_legal_moves gs pos).1, gs) := by
  conv_lhs => rw [← Prod.mk.eta (p := get_legal_moves gs pos)]
  rw [get_legal_moves_state_eq]

/-- The rejection branch: a destination outside `get_legal_moves(from)` gives
`False` and the state exactly as it was (the simulation inside the legality
query having been fully reverted). -/
theorem make_move_not_legal (gs : GameState) (from_pos to_pos : Position)
    (h : to_pos ∉ (get_legal_moves gs from_pos).1) :
    make_move gs from_pos to_pos = some (false, gs) := by
  unfold make_move
  rw [get_legal_moves_eta]
  simp only [h, not_false_eq_true, if_true]

/-- The acceptance branch, written out: with the destination legal and the
origin occupied, `make_move` is the special-move handling followed by the
piece relocation and the bookkeeping updates. -/
theorem make_move_legal_eq (gs : GameState) (from_pos to_pos : Position)
    (piece : ChessPiece) (hl : to_pos ∈ (get_legal_moves gs from_pos).1)
    (hf : gs.board from_pos = some piece) :
    make_move gs from_pos to_pos =
      (handle_special_moves gs.board gs.en_passant_target from_pos to_pos piece).bind
        (fun b1 =>
          match (b1.set to_pos (some piece)) from_pos with
          | none => none
          | some _ =>
            some (true,
              { board := (b1.set to_pos (some piece)).set from_pos none
                current_turn := gs.current_turn.opposite
                move_history := gs.move_history ++ [(from_pos, to_pos, gs.board to_pos)]
                castling_rights :=
                  update_castling_rights gs.castling_rights from_pos to_pos piece
                en_passant_target := update_en_passant from_pos to_pos piece
                halfmove_clock :=
                  if (gs.board to_pos).isSome ∨ piece.piece_type = .PAWN then 0
                  else gs.halfmove_clock + 1
                fullmove_number :=
                  if gs.current_turn = .BLACK then gs.fullmove_number + 1
                  else gs.fullmove_number })) := by
  unfold make_move
  rw [get_legal_moves_eta]
  simp only [hl, not_true_eq_false, if_false, hf]

/-! ### A legal move never targets its own origin square -/

theorem Position.add_coords {p : Position} {v : Int × Int} {q : Position}
    (h : p.add v = some q) :
    (q.row : Int) = (p.row : Int) + v.1 ∧ (q.col : Int) = (p.col : Int) + v.2 := by
  simp only [Position.add] at h
  split at h
  · rename_i hcond
    obtain ⟨h1, h2, h3, h4⟩ := hcond
    cases h
    constructor <;> simp <;> omega
  · cases h

theorem slideWalk_row_lt (b : Board) (c : Color) (s : Int × Int) (hs : 0 < s.1) :
    ∀ (fuel : Nat) (cur q : Position), q ∈ slideWalk b c fuel cur s →
      (cur.row : Int) < (q.row : Int) := by
  intro fuel
  induction fuel with
  | zero => intro cur q hq; cases hq
  | succ fuel ih =>
    intro cur q hq
    cases hadd : cur.add s with
    | none =>
      simp only [slideWalk, hadd] at hq
      cases hq
    | some nxt =>
      have hrow := (Position.add_coords hadd).1
      cases hb : b nxt with
      | some target =>
        simp only [slideWalk, hadd, hb] at hq
        have : q = nxt := by
          by_cases ht : target.color ≠ c
          · simpa [ht] using hq
          · simp [ht] at hq
        subst this; omega
      | none =>
        simp only [slideWalk, hadd, hb] at hq
        rcases List.mem_cons.mp hq with rfl | hq'
        · omega
        · have := ih nxt q hq'
          omega

theorem slideWalk_row_gt (b : Board) (c : Color) (s : Int × Int) (hs : s.1 < 0) :
    ∀ (fuel : Nat) (cur q : Position), q ∈ slideWalk b c fuel cur s →
      (q.row : Int) < (cur.row : Int) := by
  intro fuel
  induction fuel with
  | zero => intro cur q hq; cases hq
  | succ fuel ih =>
    intro cur q hq
    cases hadd : cur.add s with
    | none =>
      simp only [slideWalk, hadd] at hq
      cases hq
    | some nxt =>
      have hrow := (Position.add_coords hadd).1
      cases hb : b nxt with
      | some target =>
        simp only [slideWalk, hadd, hb] at hq
        have : q = nxt := by
          by_cases ht : target.color ≠ c
          · simpa [ht] using hq
          · simp [ht] at hq
        subst this; omega
      | none =>
        simp only [slideWalk, hadd, hb] at hq
        rcases List.mem_cons.mp hq with rfl | hq'
        · omega
        · have := ih nxt q hq'
          omega

theorem slideWalk_col_lt (b : Board) (c : Color) (s : Int × Int) (hs : 0 < s.2) :
    ∀ (fuel : Nat) (cur q : Position), q ∈ slideWalk b c fuel cur s →
      (cur.col : Int) < (q.col : Int) := by
  intro fuel
  induction fuel with
  | zero => intro cur q hq; cases hq
  | succ fuel ih =>
    intro cur q hq
    cases hadd : cur.add s with
    | none =>
      simp only [slideWalk, hadd] at hq
      cases hq
    | some nxt =>
      have hcol := (Position.add_coords hadd).2
      cases hb : b nxt with
      | some target =>
        simp only [slideWalk, hadd, hb] at hq
        have : q = nxt := by
          by_cases ht : target.color ≠ c
          · simpa [ht] using hq
          · simp [ht] at hq
        subst this; omega
      | none =>
        simp only [slideWalk, hadd, hb] at hq
        rcases List.mem_cons.mp hq with rfl | hq'
        · omega
        · have := ih nxt q hq'
          omega

theorem slideWalk_col_gt (b : Board) (c : Color) (s : Int × Int) (hs : s.2 < 0) :
    ∀ (fuel : Nat) (cur q : Position), q ∈ slideWalk b c fuel cur s →
      (q.col : Int) < (cur.col : Int) := by
  intro fuel
  induction fuel with
  | zero => intro cur q hq; cases hq
  | succ fuel ih =>
    intro cur q hq
    cases hadd : cur.add s with
    | none =>
      simp only [slideWalk, hadd] at hq
      cases hq
    | some nxt =>
      have hcol := (Position.add_coords hadd).2
      cases hb : b nxt with
      | some target =>
        simp only [slideWalk, hadd, hb] at hq
        have : q = nxt := by
          by_cases ht : target.color ≠ c
          · simpa [ht] using hq
          · simp [ht] at hq
        subst this; omega
      | none =>
        simp only [slideWalk, hadd, hb] at hq
        rcases List.mem_cons.mp hq with rfl | hq'
        · omega
        · have := ih nxt q hq'
          omega

theorem slideWalk_ne_start (b : Board) (c : Color) (fuel : Nat) (s : Int × Int)
    (hs : s ≠ (0, 0)) (start : Position) : start ∉ slideWalk b c fuel start s := by
  intro hmem
  rcases lt_trichotomy s.1 0 with h1 | h1 | h1
  · exact absurd (slideWalk_row_gt b c s h1 fuel start start hmem) (lt_irrefl _)
  · have h2 : s.2 ≠ 0 := by
      intro h2
      exact hs (Prod.ext h1 h2)
    rcases lt_trichotomy s.2 0 with h3 | h3 | h3
    · exact absurd (slideWalk_col_gt b c s h3 fuel start start hmem) (lt_irrefl _)
    · exact h2 h3
    · exact absurd (slideWalk_col_lt b c s h3 fuel start start hmem) (lt_irrefl _)
  · exact absurd (slideWalk_row_lt b c s h1 fuel start start hmem) (lt_irrefl _)

theorem mem_of_mem_filterMap_id {l : List (Option Position)} {q : Position}
    (hq : q ∈ l.filterMap id) : some q ∈ l := by
  rcases List.mem_filterMap.mp hq with ⟨a, ha, haq⟩
  cases haq
  exact ha

/-- Every pawn destination lies on a different row from the pawn. -/
theorem pawn_moves_row_ne (b : Board) (ep : Option Position) (pos : Position)
    (piece : ChessPiece) (q : Position) (hq : q ∈ pawn_moves b ep pos piece) :
    (q.row : Int) ≠ (pos.row : Int) := by
  simp only [pawn_moves, List.mem_append] at hq
  generalize hdg : (if piece.color = .WHITE then (-1 : Int) else 1) = d at hq
  have hd : d = -1 ∨ d = 1 := by
    rw [← hdg]
    by_cases h : piece.color = .WHITE <;> simp [h]
  rcases hq with (hq | hq) | hq
  · -- forward pushes
    cases hf : pos.add (d, 0) with
    | none => simp only [hf] at hq; cases hq
    | some front =>
      simp only [hf] at hq
      by_cases hbf : b front = none
      · rw [if_pos hbf] at hq
        rcases List.mem_cons.mp hq with rfl | hq2
        · have := (Position.add_coords hf).1
          omega
        · by_cases hsr : pos.row = (if piece.color = Color.WHITE then (6 : Fin 8) else 1)
          · rw [if_pos hsr] at hq2
            cases hdd : pos.add (2 * d, 0) with
            | none => simp only [hdd] at hq2; cases hq2
            | some dbl =>
              simp only [hdd] at hq2
              by_cases hbd : b dbl = none
              · rw [if_pos hbd] at hq2
                cases List.mem_singleton.mp hq2
                have := (Position.add_coords hdd).1
                omega
              · rw [if_neg hbd] at hq2; cases hq2
          · rw [if_neg hsr] at hq2; cases hq2
      · rw [if_neg hbf] at hq; cases hq
  · -- diagonal captures
    have hmem := mem_of_mem_filterMap_id (List.mem_filter.mp hq).1
    rcases List.mem_cons.mp hmem with h | h
    · have := (Position.add_coords h.symm).1
      omega
    · have h2 := List.mem_singleton.mp h
      have := (Position.add_coords h2.symm).1
      omega
  · -- en passant
    cases ep with
    | none => cases hq
    | some target =>
      have hmem := mem_of_mem_filterMap_id (List.mem_filter.mp hq).1
      rcases List.mem_cons.mp hmem with h | h
      · have := (Position.add_coords h.symm).1
        omega
      · have := (Position.add_coords (List.mem_singleton.mp h).symm).1
        omega

/-- A king or knight never steps onto its own square: the vector table has no
zero vector. -/
theorem step_moves_ne_self (b : Board) (pos : Position) (piece : ChessPiece)
    (hz : ((0 : Int), (0 : Int)) ∉ vectors piece.piece_type) :
    pos ∉ step_moves b pos piece := by
  intro hmem
  have h1 := (List.mem_filter.mp hmem).1
  rcases List.mem_filterMap.mp h1 with ⟨v, hv, hadd⟩
  have hc := Position.add_coords hadd
  have hv0 : v = ((0 : Int), (0 : Int)) := by
    obtain ⟨v1, v2⟩ := v
    have : v1 = 0 ∧ v2 = 0 := by constructor <;> omega
    simp [this.1, this.2]
  rw [hv0] at hv
  exact hz hv

theorem slide_moves_ne_self (b : Board) (pos : Position) (piece : ChessPiece)
    (hz : ∀ v ∈ vectors piece.piece_type, normStep v ≠ ((0 : Int), (0 : Int))) :
    pos ∉ slide_moves b pos piece := by
  intro hmem
  rcases List.mem_flatMap.mp hmem with ⟨v, hv, hwalk⟩
  exact slideWalk_ne_start b piece.color 8 (normStep v) (hz v hv) pos hwalk

/-- No raw pseudo-legal destination equals the origin square. -/
theorem raw_moves_ne_self (b : Board) (ep : Option Position) (pos : Position)
    (piece : ChessPiece) : pos ∉ raw_moves b ep pos piece := by
  unfold raw_moves
  cases hpt : piece.piece_type
  case PAWN =>
    intro hmem
    exact pawn_moves_row_ne b ep pos piece pos hmem rfl
  case KING =>
    refine step_moves_ne_self b pos piece ?_
    rw [hpt]; decide
  case KNIGHT =>
    refine step_moves_ne_self b pos piece ?_
    rw [hpt]; decide
  case QUEEN =>
    refine slide_moves_ne_self b pos piece ?_
    rw [hpt]; decide
  case ROOK =>
    refine slide_moves_ne_self b pos piece ?_
    rw [hpt]; decide
  case BISHOP =>
    refine slide_moves_ne_self b pos piece ?_
    rw [hpt]; decide

/-- A legal move never has its own origin as destination: for non-kings this is
geometry of the movement patterns; for kings the own square holds a king and is
removed by the king filter. -/
theorem mem_legal_ne_origin (gs : GameState) (pos x : Position)
    (hx : x ∈ (get_legal_moves gs pos).1) : x ≠ pos := by
  rcases mem_legal_pseudo gs pos x hx with ⟨piece, hb, _, hpm⟩
  intro heq
  subst heq
  unfold piece_moves at hpm
  rcases List.mem_append.mp hpm with hraw | hcast
  · exact raw_moves_ne_self gs.board gs.en_passant_target x piece hraw
  · by_cases hcond :
      (piece.piece_type = PieceType.KING &&
        !is_in_check gs.board gs.en_passant_target piece.color) = true
    · obtain ⟨pt, pc⟩ := piece
      have hkt : pt = PieceType.KING :=
        of_decide_eq_true ((Bool.and_eq_true _ _).mp hcond).1
      subst hkt
      exact mem_legal_not_king gs x x hx pc hb
    · rw [if_neg hcond] at hcast
      cases hcast

/-- When the move is neither a castling king move, nor an en-passant pawn
capture, nor a pawn reaching the last rank, `_handle_special_moves` does not
touch the board. -/
theorem handle_special_moves_id (b : Board) (ep : Option Position)
    (from_pos to_pos : Position) (piece : ChessPiece)
    (h1 : ¬(piece.piece_type = .KING ∧
        ((from_pos.col : Int) - (to_pos.col : Int)).natAbs = 2))
    (h2 : ¬(piece.piece_type = .PAWN ∧ ep = some to_pos))
    (h3 : ¬(piece.piece_type = .PAWN ∧
        (to_pos.row = (0 : Fin 8) ∨ to_pos.row = (7 : Fin 8)))) :
    handle_special_moves b ep from_pos to_pos piece = some b := by
  unfold handle_special_moves
  rw [if_neg h1]
  simp only [Option.some_bind]
  rw [if_neg h2]
  simp only [Option.map_some']
  rw [if_neg h3]

/-! ### Claim theorems -/

/-- A board with only the two kings, on their home squares e1 and e8. -/
def twoKingsBoard : Board := fun p =>
  if p = ⟨7, 4⟩ then some ⟨.KING, .WHITE⟩
  else if p = ⟨0, 4⟩ then some ⟨.KING, .BLACK⟩
  else none

/-- White to move, a white pawn on a7 one push away from promotion. -/
def promoState : GameState :=
  { board := fun p =>
      if p = ⟨1, 0⟩ then some ⟨.PAWN, .WHITE⟩ else twoKingsBoard p
    current_turn := .WHITE
    move_history := []
    castling_rights := ⟨false, false, false, false⟩
    en_passant_target := none
    halfmove_clock := 0
    fullmove_number := 1 }

/-- C1: the claim says that after a successful pawn move onto the last rank the
destination square holds a queen.  In the code, `make_move` runs
`_handle_special_moves` (which writes the queen onto `to_pos`) and only then
executes `self.board[to_pos] = piece`, overwriting the queen with the original
pawn: at the concrete promotion input the move succeeds and the destination
square still holds a white PAWN, contradicting the claim (and the code's own
"auto-promote to queen" comment). -/
theorem claim_C1_promotion_overwritten :
    (make_move promoState ⟨1, 0⟩ ⟨0, 0⟩).map (fun r => (r.1, r.2.board ⟨0, 0⟩)) =
      some (true, some ⟨.PAWN, .WHITE⟩) := by decide

/-- White to move with the king-side castling right still held but the h1 rook
square empty (the rook was captured on its home square, which does not revoke
the right, and the capturer has since moved away). -/
def rooklessCastleState : GameState :=
  { board := twoKingsBoard
    current_turn := .WHITE
    move_history := []
    castling_rights := ⟨true, false, false, false⟩
    en_passant_target := none
    halfmove_clock := 0
    fullmove_number := 1 }

/-- C3: the claim says `make_move` never raises, in particular that executing
an offered castling move never fails even when the rook square is empty.  In
the code, `_get_castling_moves` offers O-O whenever the right is held, f1/g1
are empty and e1/f1/g1 are unattacked — without checking that a rook is on
h1 — and `_handle_special_moves` then evaluates `self.board[Position(row, 7)]`,
raising `KeyError`.  At the concrete input the castling move is offered and
`make_move` raises (modelled as `none`) instead of returning a boolean. -/
theorem claim_C3_castling_raises_keyerror :
    (⟨7, 6⟩ : Position) ∈ (get_legal_moves rooklessCastleState ⟨7, 4⟩).1 ∧
      make_move rooklessCastleState ⟨7, 4⟩ ⟨7, 6⟩ = none :=
  ⟨by decide, by decide⟩

/-- C2: a move whose destination is not among the legal moves of the origin is
rejected: `make_move` returns `False` and the entire game state — board
mapping, turn, move history, castling rights, en-passant target, halfmove
clock and fullmove number — is exactly the state before the call. -/
theorem claim_C2_illegal_move_rejected (gs : GameState) (from_pos to_pos : Position)
    (h : to_pos ∉ (get_legal_moves gs from_pos).1) :
    make_move gs from_pos to_pos = some (false, gs) :=
  make_move_not_legal gs from_pos to_pos h

/-- Kings-only position used to instantiate the C2 theorem. -/
def c2State : GameState :=
  { board := twoKingsBoard
    current_turn := .WHITE
    move_history := []
    castling_rights := ⟨false, false, false, false⟩
    en_passant_target := none
    halfmove_clock := 0
    fullmove_number := 1 }

theorem claim_C2_witness :
    (⟨0, 0⟩ : Position) ∉ (get_legal_moves c2State ⟨7, 4⟩).1 ∧
      make_move c2State ⟨7, 4⟩ ⟨0, 0⟩ = some (false, c2State) :=
  ⟨by decide, claim_C2_illegal_move_rejected c2State ⟨7, 4⟩ ⟨0, 0⟩ (by decide)⟩

/-- C5: a square occupied by a king is never a member of any `get_legal_moves`
result (the king filter discards it), and `make_move` onto a square holding a
king — in particular the opponent's king — is rejected with `False` and no
state change. -/
theorem claim_C5_king_never_capturable (gs : GameState) (from_pos to_pos : Position)
    (c : Color) (h : gs.board to_pos = some ⟨.KING, c⟩) :
    to_pos ∉ (get_legal_moves gs from_pos).1 ∧
      make_move gs from_pos to_pos = some (false, gs) := by
  have hnot : to_pos ∉ (get_legal_moves gs from_pos).1 := fun hmem =>
    mem_legal_not_king gs from_pos to_pos hmem c h
  exact ⟨hnot, make_move_not_legal gs from_pos to_pos hnot⟩

/-- Kings-only position used to instantiate the C5 theorem. -/
def c5State : GameState :=
  { board := twoKingsBoard
    current_turn := .WHITE
    move_history := []
    castling_rights := ⟨false, false, false, false⟩
    en_passant_target := none
    halfmove_clock := 4
    fullmove_number := 3 }

theorem claim_C5_witness :
    c5State.board ⟨0, 4⟩ = some ⟨.KING, .BLACK⟩ ∧
      ((⟨0, 4⟩ : Position) ∉ (get_legal_moves c5State ⟨7, 4⟩).1 ∧
        make_move c5State ⟨7, 4⟩ ⟨0, 4⟩ = some (false, c5State)) :=
  ⟨by decide, claim_C5_king_never_capturable c5State ⟨7, 4⟩ ⟨0, 4⟩ .BLACK (by decide)⟩

/-- C4: querying the legal moves of any square returns the engine state — the
board mapping, turn, castling rights, en-passant target, halfmove clock,
fullmove number and move history — exactly as it was before the call; the
simulate-and-revert loop leaks no residual state. -/
theorem claim_C4_legal_query_pure (gs : GameState) (pos : Position) :
    (get_legal_moves gs pos).2 = gs :=
  get_legal_moves_state_eq gs pos

theorem has_any_legal_move_eq_false (gs : GameState) :
    has_any_legal_move gs = false ↔
      ∀ p pc, gs.board p = some pc → pc.color = gs.current_turn →
        (get_legal_moves gs p).1 = [] := by
  constructor
  · intro h p pc hb hc
    by_contra hne
    have hadv : has_any_legal_move gs = true := by
      unfold has_any_legal_move
      rw [List.any_eq_true]
      refine ⟨p, mem_allPositions p, ?_⟩
      simp only [hb]
      rw [Bool.and_eq_true]
      refine ⟨decide_eq_true hc, ?_⟩
      cases hl : (get_legal_moves gs p).1 with
      | nil => exact absurd hl hne
      | cons a l => simp
    rw [h] at hadv
    cases hadv
  · intro h
    rw [Bool.eq_false_iff]
    intro hany
    unfold has_any_legal_move at hany
    rcases List.any_eq_true.mp hany with ⟨p, _, hpred⟩
    cases hb : gs.board p with
    | none =>
      simp only [hb] at hpred
      cases hpred
    | some pc =>
      simp only [hb] at hpred
      rw [Bool.and_eq_true] at hpred
      have hc := of_decide_eq_true hpred.1
      have hne := hpred.2
      rw [h p pc hb hc] at hne
      simp at hne

/-- C6: `is_draw()` holds exactly when the halfmove clock has reached 100, or
at most three pieces remain and every one of them is a king, bishop or knight,
or the position is a stalemate (side to move not in check and without a legal
move on any of its pieces). -/
theorem claim_C6_is_draw_iff (gs : GameState) :
    is_draw gs = true ↔
      100 ≤ gs.halfmove_clock ∨
      ((occupiedSquares gs.board).card ≤ 3 ∧
        ∀ p pc, gs.board p = some pc →
          pc.piece_type = .KING ∨ pc.piece_type = .BISHOP ∨ pc.piece_type = .KNIGHT) ∨
      (is_in_check gs.board gs.en_passant_target gs.current_turn = false ∧
        ∀ p pc, gs.board p = some pc → pc.color = gs.current_turn →
          (get_legal_moves gs p).1 = []) := by
  unfold is_draw
  by_cases h100 : 100 ≤ gs.halfmove_clock
  · rw [if_pos h100]
    exact iff_of_true rfl (Or.inl h100)
  · rw [if_neg h100]
    by_cases hmat : (occupiedSquares gs.board).card ≤ 3 ∧
        ∀ p pc, gs.board p = some pc →
          pc.piece_type = .KING ∨ pc.piece_type = .BISHOP ∨ pc.piece_type = .KNIGHT
    · rw [if_pos hmat]
      exact iff_of_true rfl (Or.inr (Or.inl hmat))
    · rw [if_neg hmat]
      unfold is_stalemate
      constructor
      · intro hst
        by_cases hck : is_in_check gs.board gs.en_passant_target gs.current_turn = true
        · rw [if_pos hck] at hst
          cases hst
        · have hckf : is_in_check gs.board gs.en_passant_target gs.current_turn = false :=
            Bool.eq_false_iff.mpr hck
          rw [if_neg hck] at hst
          have hanyf : has_any_legal_move gs = false := by
            cases hv : has_any_legal_move gs
            · rfl
            · rw [hv] at hst
              simp at hst
          exact Or.inr (Or.inr ⟨hckf, (has_any_legal_move_eq_false gs).mp hanyf⟩)
      · rintro (h | h | ⟨hckf, hP⟩)
        · exact absurd h h100
        · exact absurd h hmat
        · have hck : ¬(is_in_check gs.board gs.en_passant_target gs.current_turn = true) := by
            rw [hckf]; simp
          rw [if_neg hck]
          have hanyf := (has_any_legal_move_eq_false gs).mpr hP
          rw [hanyf]
          rfl

/-- Exactly the two kings remain on the board. -/
def kingVsKing (b : Board) : Prop :=
  ∃ pw pb : Position, pw ≠ pb ∧
    b pw = some ⟨.KING, .WHITE⟩ ∧ b pb = some ⟨.KING, .BLACK⟩ ∧
    ∀ q, q ≠ pw → q ≠ pb → b q = none

/-- Both kings plus a single minor piece (bishop or knight) remain. -/
def kingMinorVsKing (b : Board) : Prop :=
  ∃ pw pb pm : Position, ∃ pc : ChessPiece,
    pw ≠ pb ∧ pw ≠ pm ∧ pb ≠ pm ∧
    b pw = some ⟨.KING, .WHITE⟩ ∧ b pb = some ⟨.KING, .BLACK⟩ ∧
    b pm = some pc ∧ (pc.piece_type = .BISHOP ∨ pc.piece_type = .KNIGHT) ∧
    ∀ q, q ≠ pw → q ≠ pb → q ≠ pm → b q = none

/-- King and rook versus king with a halfmove clock of exactly 50. -/
def fiftyPlyState : GameState :=
  { board := fun p =>
      if p = ⟨7, 0⟩ then some ⟨.ROOK, .WHITE⟩ else twoKingsBoard p
    current_turn := .WHITE
    move_history := []
    castling_rights := ⟨false, false, false, false⟩
    en_passant_target := none
    halfmove_clock := 50
    fullmove_number := 26 }

set_option maxRecDepth 8000 in
/-- C7 (counterexample): the claim reads the fifty-move rule as firing at a
halfmove clock of 50, but `is_draw` compares the clock against 100; in a
position with the clock at exactly 50, ample material and legal moves
available, `is_draw()` returns `False`, contradicting the claim. -/
theorem claim_C7_counterexample :
    fiftyPlyState.halfmove_clock = 50 ∧ is_draw fiftyPlyState = false :=
  ⟨rfl, by decide⟩

/-- C7 (amended): when one hundred plies have elapsed without a capture or a
pawn move (halfmove clock at least 100), or the remaining material is king
versus king or king plus one minor piece versus king, `is_draw()` returns
true. -/
theorem claim_C7_draw_sufficient (gs : GameState)
    (h : 100 ≤ gs.halfmove_clock ∨ kingVsKing gs.board ∨ kingMinorVsKing gs.board) :
    is_draw gs = true := by
  unfold is_draw
  by_cases h100 : 100 ≤ gs.halfmove_clock
  · rw [if_pos h100]
  · rw [if_neg h100]
    rcases h with h | h | h
    · exact absurd h h100
    · obtain ⟨pw, pb, hne, hw, hb, hrest⟩ := h
      have hcond : (occupiedSquares gs.board).card ≤ 3 ∧
          ∀ p pc, gs.board p = some pc →
            pc.piece_type = .KING ∨ pc.piece_type = .BISHOP ∨
              pc.piece_type = .KNIGHT := by
        constructor
        · have hsub : occupiedSquares gs.board ⊆ ({pw, pb} : Finset Position) := by
            intro q hq
            rw [occupiedSquares, Finset.mem_filter] at hq
            by_contra hqn
            rw [Finset.mem_insert, Finset.mem_singleton] at hqn
            push_neg at hqn
            rw [hrest q hqn.1 hqn.2] at hq
            simp at hq
          calc (occupiedSquares gs.board).card
              ≤ ({pw, pb} : Finset Position).card := Finset.card_le_card hsub
            _ ≤ ({pb} : Finset Position).card + 1 := Finset.card_insert_le _ _
            _ ≤ 3 := by simp
        · intro p pc hp
          by_cases h1 : p = pw
          · subst h1; rw [hw] at hp; cases hp; exact Or.inl rfl
          · by_cases h2 : p = pb
            · subst h2; rw [hb] at hp; cases hp; exact Or.inl rfl
            · rw [hrest p h1 h2] at hp; cases hp
      rw [if_pos hcond]
    · obtain ⟨pw, pb, pm, pc, hne1, hne2, hne3, hw, hb, hm, hkind, hrest⟩ := h
      have hcond : (occupiedSquares gs.board).card ≤ 3 ∧
          ∀ p pc, gs.board p = some pc →
            pc.piece_type = .KING ∨ pc.piece_type = .BISHOP ∨
              pc.piece_type = .KNIGHT := by
        constructor
        · have hsub : occupiedSquares gs.board ⊆ ({pw, pb, pm} : Finset Position) := by
            intro q hq
            rw [occupiedSquares, Finset.mem_filter] at hq
            by_contra hqn
            rw [Finset.mem_insert, Finset.mem_insert, Finset.mem_singleton] at hqn
            push_neg at hqn
            rw [hrest q hqn.1 hqn.2.1 hqn.2.2] at hq
            simp at hq
          calc (occupiedSquares gs.board).card
              ≤ ({pw, pb, pm} : Finset Position).card := Finset.card_le_card hsub
            _ ≤ ({pb, pm} : Finset Position).card + 1 := Finset.card_insert_le _ _
            _ ≤ (({pm} : Finset Position).card + 1) + 1 := by
                have := Finset.card_insert_le pb ({pm} : Finset Position)
                omega
            _ ≤ 3 := by simp
        · intro p pc' hp
          by_cases h1 : p = pw
          · subst h1; rw [hw] at hp; cases hp; exact Or.inl rfl
          · by_cases h2 : p = pb
            · subst h2; rw [hb] at hp; cases hp; exact Or.inl rfl
            · by_cases h3 : p = pm
              · subst h3; rw [hm] at hp; cases hp
                rcases hkind with hk | hk
                · exact Or.inr (Or.inl hk)
                · exact Or.inr (Or.inr hk)
              · rw [hrest p h1 h2 h3] at hp; cases hp
      rw [if_pos hcond]

/-- King and bishop versus king, used to instantiate the amended C7 theorem. -/
def minorDrawState : GameState :=
  { board := fun p =>
      if p = ⟨4, 2⟩ then some ⟨.BISHOP, .WHITE⟩ else twoKingsBoard p
    current_turn := .WHITE
    move_history := []
    castling_rights := ⟨false, false, false, false⟩
    en_passant_target := none
    halfmove_clock := 0
    fullmove_number := 30 }

theorem claim_C7_witness :
    kingMinorVsKing minorDrawState.board ∧ is_draw minorDrawState = true := by
  have hm : kingMinorVsKing minorDrawState.board :=
    ⟨⟨7, 4⟩, ⟨0, 4⟩, ⟨4, 2⟩, ⟨.BISHOP, .WHITE⟩, by decide, by decide, by decide,
      by decide, by decide, by decide, by decide, by decide⟩
  exact ⟨hm, claim_C7_draw_sufficient minorDrawState (Or.inr (Or.inr hm))⟩

theorem CastlingRights.get_set (cr : CastlingRights) (c : Color) (s : CastleSide)
    (v : Bool) (c' : Color) (s' : CastleSide) :
    (cr.set c s v).get c' s' = if c' = c ∧ s' = s then v else cr.get c' s' := by
  cases c <;> cases s <;> cases c' <;> cases s' <;>
    simp [CastlingRights.set, CastlingRights.get]

/-- Decomposition of a successful `make_move`: the destination was legal, and
each field of the resulting state is the corresponding bookkeeping update. -/
theorem make_move_success_fields (gs : GameState) (f t : Position)
    (piece : ChessPiece) (gs' : GameState) (hf : gs.board f = some piece)
    (hmk : make_move gs f t = some (true, gs')) :
    t ∈ (get_legal_moves gs f).1 ∧
    gs'.castling_rights = update_castling_rights gs.castling_rights f t piece ∧
    gs'.current_turn = gs.current_turn.opposite ∧
    gs'.move_history = gs.move_history ++ [(f, t, gs.board t)] ∧
    ∃ b1, handle_special_moves gs.board gs.en_passant_target f t piece = some b1 ∧
      gs'.board = (b1.set t (some piece)).set f none := by
  have hmem : t ∈ (get_legal_moves gs f).1 := by
    by_contra hmem
    rw [make_move_not_legal gs f t hmem] at hmk
    have hp := Option.some.inj hmk
    have hc := congrArg Prod.fst hp
    simp at hc
  rw [make_move_legal_eq gs f t piece hmem hf] at hmk
  cases hsp : handle_special_moves gs.board gs.en_passant_target f t piece with
  | none =>
    rw [hsp] at hmk
    simp at hmk
  | some b1 =>
    rw [hsp] at hmk
    simp only [Option.some_bind] at hmk
    cases hb2 : (b1.set t (some piece)) f with
    | none =>
      simp only [hb2] at hmk
      cases hmk
    | some pc2 =>
      simp only [hb2] at hmk
      have h2 := Option.some.inj hmk
      have h3 := (Prod.mk.injEq _ _ _ _).mp h2
      refine ⟨hmem, ?_, ?_, ?_, b1, rfl, ?_⟩ <;> rw [← h3.2]

/-- C8 (amended): a successful `make_move` updates castling rights as the code
does — a king move clears both of the mover's rights; a rook move clears the
queen-side right whenever it starts from column 0 and the king-side right
whenever it starts from column 7 (regardless of row, which is the deviation
from the claim as written); a move of any other piece kind changes no right;
a rook move from a middle column changes no right; and rights only ever pass
from held to revoked. -/
theorem claim_C8_castling_rights_update (gs : GameState) (f t : Position)
    (piece : ChessPiece) (gs' : GameState) (hf : gs.board f = some piece)
    (hmk : make_move gs f t = some (true, gs')) :
    (piece.piece_type = .KING →
      gs'.castling_rights.get piece.color .king = false ∧
      gs'.castling_rights.get piece.color .queen = false) ∧
    (piece.piece_type = .ROOK → f.col = (0 : Fin 8) →
      gs'.castling_rights.get piece.color .queen = false) ∧
    (piece.piece_type = .ROOK → f.col = (7 : Fin 8) →
      gs'.castling_rights.get piece.color .king = false) ∧
    (piece.piece_type ≠ .KING → piece.piece_type ≠ .ROOK →
      gs'.castling_rights = gs.castling_rights) ∧
    (piece.piece_type = .ROOK → f.col ≠ (0 : Fin 8) → f.col ≠ (7 : Fin 8) →
      gs'.castling_rights = gs.castling_rights) ∧
    (∀ c s, gs.castling_rights.get c s = false →
      gs'.castling_rights.get c s = false) := by
  obtain ⟨-, hcr, -, -, -⟩ := make_move_success_fields gs f t piece gs' hf hmk
  rw [hcr]
  unfold update_castling_rights
  refine ⟨?_, ?_, ?_, ?_, ?_, ?_⟩
  · intro hk
    rw [if_pos hk]
    constructor <;> (rw [CastlingRights.get_set, CastlingRights.get_set]) <;>
      simp
  · intro hr h0
    have hnk : ¬(piece.piece_type = PieceType.KING) := by rw [hr]; decide
    rw [if_neg hnk, if_pos hr, if_pos h0, CastlingRights.get_set]
    simp
  · intro hr h7
    have hnk : ¬(piece.piece_type = PieceType.KING) := by rw [hr]; decide
    have h0 : ¬(f.col = (0 : Fin 8)) := by rw [h7]; decide
    rw [if_neg hnk, if_pos hr, if_neg h0, if_pos h7, CastlingRights.get_set]
    simp
  · intro hnk hnr
    rw [if_neg hnk, if_neg hnr]
  · intro hr h0 h7
    have hnk : ¬(piece.piece_type = PieceType.KING) := by rw [hr]; decide
    rw [if_neg hnk, if_pos hr, if_neg h0, if_neg h7]
  · intro c s hcs
    by_cases hk : piece.piece_type = .KING
    · rw [if_pos hk, CastlingRights.get_set, CastlingRights.get_set]
      split_ifs <;> simp [hcs]
    · rw [if_neg hk]
      by_cases hr : piece.piece_type = .ROOK
      · rw [if_pos hr]
        by_cases h0 : f.col = (0 : Fin 8)
        · rw [if_pos h0, CastlingRights.get_set]
          split_ifs <;> simp [hcs]
        · rw [if_neg h0]
          by_cases h7 : f.col = (7 : Fin 8)
          · rw [if_pos h7, CastlingRights.get_set]
            split_ifs <;> simp [hcs]
          · rw [if_neg h7]
            exact hcs
      · rw [if_neg hr]
        exact hcs

/-- White rook on a5 — column 0 but not the original corner a1 — with the
white queen-side right still held. -/
def c8State : GameState :=
  { board := fun p =>
      if p = ⟨3, 0⟩ then some ⟨.ROOK, .WHITE⟩ else twoKingsBoard p
    current_turn := .WHITE
    move_history := []
    castling_rights := ⟨false, true, false, false⟩
    en_passant_target := none
    halfmove_clock := 0
    fullmove_number := 20 }

set_option maxRecDepth 8000 in
set_option maxHeartbeats 1600000 in
/-- C8 (counterexample): the claim says a rook move clears the corresponding
right exactly when the rook moves from its original corner square.  The code
keys the update on the column alone: a white rook moving from a5 — column 0
but not the corner a1 — still clears the white queen-side right, so the held
right is revoked by a move not from the original corner square. -/
theorem claim_C8_counterexample :
    c8State.castling_rights.get .WHITE .queen = true ∧
    (⟨3, 0⟩ : Position) ≠ (⟨7, 0⟩ : Position) ∧
    (make_move c8State ⟨3, 0⟩ ⟨4, 0⟩).map
        (fun r => (r.1, r.2.castling_rights.get .WHITE .queen)) =
      some (true, false) :=
  ⟨rfl, by decide, by decide⟩

/-- The state after the rook move of `c8State`, written out for the witness. -/
def c8After : GameState :=
  { board := fun p =>
      if p = ⟨4, 0⟩ then some ⟨.ROOK, .WHITE⟩ else twoKingsBoard p
    current_turn := .BLACK
    move_history := [(⟨3, 0⟩, ⟨4, 0⟩, none)]
    castling_rights := ⟨false, false, false, false⟩
    en_passant_target := none
    halfmove_clock := 1
    fullmove_number := 20 }

/-- Bridge from a computable comparison to a propositional `make_move`
equation: the flag and the full resulting state are checked by evaluation. -/
theorem make_move_eq_of_map_decide (o : Option (Bool × GameState)) (b : Bool)
    (x : GameState) (h : o.map (fun r => (r.1, decide (r.2 = x))) = some (b, true)) :
    o = some (b, x) := by
  cases o with
  | none => cases h
  | some r =>
    simp only [Option.map_some'] at h
    have h2 := Option.some.inj h
    obtain ⟨hb, hd⟩ := (Prod.mk.injEq _ _ _ _).mp h2
    have hx : r.2 = x := of_decide_eq_true hd
    obtain ⟨r1, r2⟩ := r
    cases hb
    cases hx
    rfl

set_option maxRecDepth 8000 in
set_option maxHeartbeats 1600000 in
theorem claim_C8_witness :
    c8State.board ⟨3, 0⟩ = some ⟨.ROOK, .WHITE⟩ ∧
    make_move c8State ⟨3, 0⟩ ⟨4, 0⟩ = some (true, c8After) ∧
    c8After.castling_rights.get .WHITE .queen = false := by
  have hmk : make_move c8State ⟨3, 0⟩ ⟨4, 0⟩ = some (true, c8After) :=
    make_move_eq_of_map_decide _ _ _ (by decide)
  exact ⟨by decide, hmk,
    (claim_C8_castling_rights_update c8State ⟨3, 0⟩ ⟨4, 0⟩ ⟨.ROOK, .WHITE⟩ c8After
      (by decide) hmk).2.1 rfl rfl⟩

theorem foldr_max_le (l : List Nat) (x : Nat) (hx : x ∈ l) : x ≤ l.foldr max 0 := by
  induction l with
  | nil => cases hx
  | cons a t ih =>
    rcases List.mem_cons.mp hx with rfl | hx'
    · exact le_max_left _ _
    · exact le_trans (ih hx') (le_max_right _ _)

theorem foldr_max_mem (l : List Nat) (hl : l ≠ []) : l.foldr max 0 ∈ l := by
  induction l with
  | nil => exact absurd rfl hl
  | cons a t ih =>
    cases t with
    | nil => simp
    | cons b t2 =>
      have hmem := ih (by simp)
      rw [List.foldr_cons]
      rcases le_total ((b :: t2).foldr max 0) a with h | h
      · rw [max_eq_left h]
        exact List.mem_cons_self _ _
      · rw [max_eq_right h]
        exact List.mem_cons_of_mem _ hmem

theorem mem_choose_candidates (gs : GameState) (p t : Position) :
    (p, t) ∈ choose_move_candidates gs ↔
      ∃ pc, gs.board p = some pc ∧ pc.color = gs.current_turn ∧
        t ∈ (get_legal_moves gs p).1 := by
  constructor
  · intro h
    rcases List.mem_flatMap.mp h with ⟨pos, _, hmem⟩
    cases hb : gs.board pos with
    | none => simp only [hb] at hmem; cases hmem
    | some pc =>
      simp only [hb] at hmem
      by_cases hc : pc.color = gs.current_turn
      · rw [if_pos hc] at hmem
        rcases List.mem_map.mp hmem with ⟨mv, hmv, heq⟩
        obtain ⟨h1, h2⟩ := (Prod.mk.injEq _ _ _ _).mp heq
        subst h1
        subst h2
        exact ⟨pc, hb, hc, hmv⟩
      · rw [if_neg hc] at hmem; cases hmem
  · rintro ⟨pc, hb, hc, ht⟩
    refine List.mem_flatMap.mpr ⟨p, mem_allPositions p, ?_⟩
    simp only [hb]
    rw [if_pos hc]
    exact List.mem_map.mpr ⟨t, ht, rfl⟩

theorem choose_best_ne_nil (gs : GameState)
    (hne : choose_move_candidates gs ≠ []) : choose_move_best gs ≠ [] := by
  intro h0
  have hI : (choose_move_candidates gs).isEmpty = false := by
    cases hc : choose_move_candidates gs with
    | nil => exact absurd hc hne
    | cons a l => rfl
  unfold choose_move_best at h0
  rw [hI] at h0
  rw [if_neg Bool.false_ne_true] at h0
  have hmapne : (choose_move_candidates gs).map
      (fun ft => evaluate_move gs.board ft.2) ≠ [] := by
    intro hm
    exact hne (List.map_eq_nil_iff.mp hm)
  have hmax := foldr_max_mem _ hmapne
  rcases List.mem_map.mp hmax with ⟨ft, hft, hval⟩
  have hmemf : ft ∈ (choose_move_candidates gs).filter
      (fun ft => decide (evaluate_move gs.board ft.2 =
        ((choose_move_candidates gs).map
          (fun ft => evaluate_move gs.board ft.2)).foldr max 0)) :=
    List.mem_filter.mpr ⟨hft, decide_eq_true hval⟩
  rw [h0] at hmemf
  cases hmemf

/-- C9: the `best_options` list computed by `choose_move()` (from which
`random.choice` picks, `None` being returned exactly when it is empty) is
empty iff the side to move has no legal move on any of its pieces; and every
member is a legal move of a piece of the side to move whose capture value,
under the table pawn 1 / knight 3 / bishop 3 / rook 5 / queen 9 / king 0 with
0 for an empty destination, is maximal among all legal moves available to the
side to move. -/
theorem claim_C9_choose_move (gs : GameState) :
    (choose_move_best gs = [] ↔
      ∀ p pc, gs.board p = some pc → pc.color = gs.current_turn →
        (get_legal_moves gs p).1 = []) ∧
    ∀ ft ∈ choose_move_best gs,
      ft.2 ∈ (get_legal_moves gs ft.1).1 ∧
      ∀ f' t', t' ∈ (get_legal_moves gs f').1 →
        evaluate_move gs.board t' ≤ evaluate_move gs.board ft.2 := by
  have hof_legal : ∀ f' t', t' ∈ (get_legal_moves gs f').1 →
      (f', t') ∈ choose_move_candidates gs := by
    intro f' t' ht
    rcases mem_legal_pseudo gs f' t' ht with ⟨pc, hb, hc, _⟩
    exact (mem_choose_candidates gs f' t').mpr ⟨pc, hb, hc, ht⟩
  constructor
  · constructor
    · intro h0 p pc hbp hcp
      by_contra hne
      obtain ⟨t, ht⟩ : ∃ t, t ∈ (get_legal_moves gs p).1 := by
        cases hl : (get_legal_moves gs p).1 with
        | nil => exact absurd hl hne
        | cons a l => exact ⟨a, List.mem_cons_self _ _⟩
      have hcne : choose_move_candidates gs ≠ [] := by
        intro hc
        have := hof_legal p t ht
        rw [hc] at this
        cases this
      exact choose_best_ne_nil gs hcne h0
    · intro hall
      have hcand : choose_move_candidates gs = [] := by
        cases hc : choose_move_candidates gs with
        | nil => rfl
        | cons ft rest =>
          have hmem : (ft.1, ft.2) ∈ choose_move_candidates gs := by
            rw [Prod.mk.eta, hc]
            exact List.mem_cons_self _ _
          rcases (mem_choose_candidates gs ft.1 ft.2).mp hmem with ⟨pc, hbp, hcp, ht⟩
          rw [hall ft.1 pc hbp hcp] at ht
          cases ht
      unfold choose_move_best
      rw [hcand]
      simp
  · intro ft hft
    unfold choose_move_best at hft
    by_cases hI : (choose_move_candidates gs).isEmpty = true
    · rw [if_pos hI] at hft
      cases hft
    · rw [if_neg hI] at hft
      have hft2 := List.mem_filter.mp hft
      have hmemc : (ft.1, ft.2) ∈ choose_move_candidates gs := by
        rw [Prod.mk.eta]
        exact hft2.1
      have hval : evaluate_move gs.board ft.2 =
          ((choose_move_candidates gs).map
            (fun ft => evaluate_move gs.board ft.2)).foldr max 0 :=
        of_decide_eq_true hft2.2
      constructor
      · rcases (mem_choose_candidates gs ft.1 ft.2).mp hmemc with ⟨pc, _, _, ht⟩
        exact ht
      · intro f' t' ht'
        have hinmap : evaluate_move gs.board t' ∈
            (choose_move_candidates gs).map (fun ft => evaluate_move gs.board ft.2) :=
          List.mem_map.mpr ⟨(f', t'), hof_legal f' t' ht', rfl⟩
        rw [hval]
        exact foldr_max_le _ _ hinmap

/-- C10: for a successful move that is not a castling king move, not an
en-passant capture and not a pawn promotion, the GUI undo operation restores
the board mapping and the side to move exactly to their pre-move values. -/
theorem claim_C10_undo_round_trip (gs : GameState) (f t : Position)
    (piece : ChessPiece) (gs' : GameState)
    (hf : gs.board f = some piece)
    (hmk : make_move gs f t = some (true, gs'))
    (h1 : ¬(piece.piece_type = .KING ∧ ((f.col : Int) - (t.col : Int)).natAbs = 2))
    (h2 : ¬(piece.piece_type = .PAWN ∧ gs.en_passant_target = some t))
    (h3 : ¬(piece.piece_type = .PAWN ∧ (t.row = (0 : Fin 8) ∨ t.row = (7 : Fin 8)))) :
    ∃ gs'', undo_move gs' = some gs'' ∧ gs''.board = gs.board ∧
      gs''.current_turn = gs.current_turn := by
  obtain ⟨hmem, -, hturn, hhist, b1, hsp, hboard⟩ :=
    make_move_success_fields gs f t piece gs' hf hmk
  rw [handle_special_moves_id gs.board gs.en_passant_target f t piece h1 h2 h3] at hsp
  have hb1 : gs.board = b1 := Option.some.inj hsp
  subst hb1
  have hft : t ≠ f := mem_legal_ne_origin gs f t hmem
  have hlast : gs'.move_history.getLast? = some (f, t, gs.board t) := by
    rw [hhist]
    exact List.getLast?_concat _
  have hbt : gs'.board t = some piece := by
    rw [hboard, Board.set_other _ _ _ _ hft, Board.set_self]
  simp only [undo_move, hlast, hbt]
  refine ⟨_, rfl, ?_, ?_⟩
  · -- the board is restored
    show (match gs.board t with
      | some cp => ((gs'.board.set f (some piece)).set t none).set t (some cp)
      | none => (gs'.board.set f (some piece)).set t none) = gs.board
    have hrest : ∀ q, q ≠ t →
        ((gs'.board.set f (some piece)).set t none) q = gs.board q := by
      intro q hq
      rw [Board.set_other _ _ _ _ hq]
      by_cases hqf : q = f
      · subst hqf
        rw [Board.set_self, hf]
      · rw [Board.set_other _ _ _ _ hqf, hboard,
          Board.set_other _ _ _ _ hqf]
        by_cases hqt : q = t
        · exact absurd hqt hq
        · rw [Board.set_other _ _ _ _ hqt]
    cases hcap : gs.board t with
    | some cp =>
      show (((gs'.board.set f (some piece)).set t none).set t (some cp)) = gs.board
      funext q
      by_cases hq : q = t
      · rw [hq, Board.set_self, hcap]
      · rw [Board.set_other _ _ _ _ hq]
        exact hrest q hq
    | none =>
      show ((gs'.board.set f (some piece)).set t none) = gs.board
      funext q
      by_cases hq : q = t
      · rw [hq, Board.set_self, hcap]
      · exact hrest q hq
  · -- the turn is restored
    show gs'.current_turn.opposite = gs.current_turn
    rw [hturn, Color.opposite_opposite]

/-- Kings plus a white knight on b1, used to instantiate the C10 theorem. -/
def c10State : GameState :=
  { board := fun p =>
      if p = ⟨7, 1⟩ then some ⟨.KNIGHT, .WHITE⟩ else twoKingsBoard p
    current_turn := .WHITE
    move_history := []
    castling_rights := ⟨false, false, false, false⟩
    en_passant_target := none
    halfmove_clock := 3
    fullmove_number := 2 }

/-- The state after the knight move of `c10State`, written out for the
witness. -/
def c10After : GameState :=
  { board := fun p =>
      if p = ⟨5, 2⟩ then some ⟨.KNIGHT, .WHITE⟩
      else if p = ⟨7, 1⟩ then none
      else twoKingsBoard p
    current_turn := .BLACK
    move_history := [(⟨7, 1⟩, ⟨5, 2⟩, none)]
    castling_rights := ⟨false, false, false, false⟩
    en_passant_target := none
    halfmove_clock := 4
    fullmove_number := 2 }

set_option maxRecDepth 8000 in
set_option maxHeartbeats 1600000 in
theorem claim_C10_witness :
    make_move c10State ⟨7, 1⟩ ⟨5, 2⟩ = some (true, c10After) ∧
    ∃ gs'', undo_move c10After = some gs'' ∧ gs''.board = c10State.board ∧
      gs''.current_turn = c10State.current_turn := by
  have hmk : make_move c10State ⟨7, 1⟩ ⟨5, 2⟩ = some (true, c10After) :=
    make_move_eq_of_map_decide _ _ _ (by decide)
  exact ⟨hmk,
    claim_C10_undo_round_trip c10State ⟨7, 1⟩ ⟨5, 2⟩ ⟨.KNIGHT, .WHITE⟩ c10After
      (by decide) hmk (by decide) (by decide) (by decide)⟩
